import Mathlib

/-!
Verification development for the Arabic document assistant's retrieval
pipeline.  The Python sources (`vector_store.py`, `document_processor.py`)
are shallowly embedded below: strings are `List Char`, machine floats that
only ever get compared are modelled as `Int` (all claims concern counts and
orderings, not rounded values), fallible library calls (`model.encode`,
the LangChain splitter, `langdetect`) are parameters returning `Option`,
and a `none` result models the library raising an exception.  External
library behaviour that the code relies on (FAISS `IndexFlatL2.search`,
LangChain's `RecursiveCharacterTextSplitter`, Python `re` substitution and
splitting for the concrete patterns used) is modelled from the libraries'
documented algorithms, since those libraries are not part of the
repository.
-/

abbrev Str := List Char

/-- Python whitespace (the ASCII part of `str.strip` / regex `\s`;
the documents at issue contain no exotic Unicode spaces). -/
def isPyWs (c : Char) : Bool :=
  c = ' ' || c = '\t' || c = '\n' || c = '\r' || c = '\x0b' || c = '\x0c'

/-- Python `str.strip()`: drop whitespace from both ends. -/
def pyStrip (l : Str) : Str :=
  ((l.dropWhile isPyWs).reverse.dropWhile isPyWs).reverse

/-- `'؀' <= c <= 'ۿ'`, the Arabic-block test used throughout
`document_processor.py`. -/
def isArabicChar (c : Char) : Bool :=
  decide ('؀' ≤ c) && decide (c ≤ 'ۿ')

/- ===================== vector_store.py ===================== -/

/-- The metadata dict attached to each chunk by `chunk_document`
(`document_processor.py` L239-245 / L254).  `language` is `none` when the
dict has no `"language"` key (the fallback chunk at L254). -/
structure ChunkMeta where
  source : Str
  chunk_id : Nat
  page : Nat
  line : Nat
  language : Option Str
deriving DecidableEq, Repr

/-- A chunk dict `{"id": ..., "text": ..., "metadata": ...}`. -/
structure Chunk where
  id : Nat
  text : Str
  metadata : ChunkMeta
deriving DecidableEq, Repr

/-- Embedding vectors; floats are modelled as integers (only distances and
their order matter in the claims). -/
abbrev Vec := List Int

/-- `faiss.IndexFlatL2`: a flat store of the added vectors. -/
structure FaissIndex where
  vectors : List Vec
deriving DecidableEq, Repr

/-- Squared Euclidean distance, the metric of `IndexFlatL2`. -/
def sqDist (a b : Vec) : Int :=
  (a.zip b).foldl (fun acc p => acc + (p.1 - p.2) ^ 2) 0

/-- `(distance, id)` pairs for every stored vector, ids in insertion order
starting at `i`. -/
def pairsOf (q : Vec) : List Vec → Nat → List (Int × Int)
  | [], _ => []
  | v :: vs, i => (sqDist q v, (i : Int)) :: pairsOf q vs (i + 1)

/-- Insert into a list sorted by ascending distance (stable). -/
def insertPair (a : Int × Int) : List (Int × Int) → List (Int × Int)
  | [] => [a]
  | b :: l => if a.1 < b.1 then a :: b :: l else b :: insertPair a l

/-- Stable sort by ascending distance. -/
def sortPairs : List (Int × Int) → List (Int × Int)
  | [] => []
  | a :: l => insertPair a (sortPairs l)

/-- Sentinel distance FAISS reports for padding entries (`FLT_MAX`-like);
the paired id is `-1` and the repository code skips such entries. -/
def faissNoDist : Int := 340282346638528859811704183484516925440

/-- `index.search(q, k)`: the `k` nearest stored vectors by ascending
squared L2 distance; when fewer than `k` vectors are stored the output is
padded to length `k` with id `-1` entries. -/
def faissSearch (idx : FaissIndex) (q : Vec) (k : Nat) : List (Int × Int) :=
  let sorted := sortPairs (pairsOf q idx.vectors 0)
  let real := sorted.take k
  real ++ List.replicate (k - real.length) (faissNoDist, -1)

/-- One entry of the list returned by `VectorStore.search`
(`{"chunk": ..., "metadata": ..., "score": ...}`). -/
structure SearchResult where
  chunk : Str
  metadata : ChunkMeta
  score : Int
deriving DecidableEq, Repr

/-- The `VectorStore` object's mutable fields. -/
structure VectorStore where
  index : Option FaissIndex
  chunks : List Chunk
  dimension : Nat
deriving DecidableEq, Repr

/-- `VectorStore.add_document` (`vector_store.py` L21-49).
`embedB` models `model.encode`; `none` models the encoder raising, in
which case the method re-raises (result `none`) after having already
executed `self.chunks = chunks` (L24, before the `try`). -/
def addDocument (embedB : List Str → Option (List Vec))
    (store : VectorStore) (cs : List Chunk) : VectorStore × Option Nat :=
  let store1 := { store with chunks := cs }
  let texts := cs.map (·.text)
  if texts = [] then (store1, some 0)
  else
    match embedB texts with
    | none => (store1, none)
    | some embs =>
        ({ index := some ⟨embs⟩, chunks := cs,
           dimension := (embs.head?.getD []).length }, some cs.length)

/-- The result-collection loop of `VectorStore.search` (L72-84): skip the
`-1` sentinel, skip out-of-range ids, copy text/metadata/score. -/
def collectResults (chunks : List Chunk) : List (Int × Int) → List SearchResult
  | [] => []
  | p :: rest =>
    if p.2 = -1 then collectResults chunks rest
    else if h : 0 ≤ p.2 ∧ p.2.toNat < chunks.length then
      { chunk := (chunks.get ⟨p.2.toNat, h.2⟩).text,
        metadata := (chunks.get ⟨p.2.toNat, h.2⟩).metadata,
        score := p.1 } :: collectResults chunks rest
    else collectResults chunks rest

/-- `VectorStore.search` (`vector_store.py` L51-95).  `embedQ` models
`model.encode([query])`; a `none` result models the encoder raising, which
the method catches, returning `[]`. -/
def search (embedQ : Str → Option Vec) (store : VectorStore)
    (q : Str) (k : Nat) : List SearchResult :=
  match store.index with
  | none => []
  | some idx =>
    if store.chunks = [] then []
    else
      match embedQ q with
      | none => []
      | some qv => collectResults store.chunks (faissSearch idx qv k)

/- ===== sorting / collection lemmas ===== -/

theorem insertPair_length (a : Int × Int) (l : List (Int × Int)) :
    (insertPair a l).length = l.length + 1 := by
  induction l with
  | nil => rfl
  | cons b t ih =>
      simp only [insertPair]
      split
      · simp
      · simp [ih]

theorem sortPairs_length (l : List (Int × Int)) :
    (sortPairs l).length = l.length := by
  induction l with
  | nil => rfl
  | cons a t ih => simp [sortPairs, insertPair_length, ih]

theorem mem_insertPair {x a : Int × Int} {l : List (Int × Int)}
    (hx : x ∈ insertPair a l) : x = a ∨ x ∈ l := by
  induction l with
  | nil => simpa [insertPair] using hx
  | cons b t ih =>
      simp only [insertPair] at hx
      by_cases hab : a.1 < b.1
      · rw [if_pos hab] at hx
        rcases List.mem_cons.mp hx with h | h
        · exact Or.inl h
        · exact Or.inr h
      · rw [if_neg hab] at hx
        rcases List.mem_cons.mp hx with h | h
        · exact Or.inr (h ▸ List.mem_cons_self b t)
        · rcases ih h with h' | h'
          · exact Or.inl h'
          · exact Or.inr (List.mem_cons_of_mem _ h')

theorem mem_sortPairs {x : Int × Int} {l : List (Int × Int)}
    (hx : x ∈ sortPairs l) : x ∈ l := by
  induction l with
  | nil => simp [sortPairs] at hx
  | cons a t ih =>
      simp only [sortPairs] at hx
      rcases mem_insertPair hx with h | h
      · simp [h]
      · exact List.mem_cons_of_mem _ (ih h)

theorem insertPair_sorted (a : Int × Int) (l : List (Int × Int))
    (hl : l.Pairwise (fun x y => x.1 ≤ y.1)) :
    (insertPair a l).Pairwise (fun x y => x.1 ≤ y.1) := by
  induction l with
  | nil => simp [insertPair]
  | cons b t ih =>
      rcases List.pairwise_cons.mp hl with ⟨hb, ht⟩
      simp only [insertPair]
      by_cases hab : a.1 < b.1
      · rw [if_pos hab]
        refine List.pairwise_cons.mpr ⟨?_, hl⟩
        intro y hy
        rcases List.mem_cons.mp hy with h | h
        · exact h ▸ le_of_lt hab
        · exact le_trans (le_of_lt hab) (hb y h)
      · rw [if_neg hab]
        push_neg at hab
        refine List.pairwise_cons.mpr ⟨?_, ih ht⟩
        intro y hy
        rcases mem_insertPair hy with h | h
        · exact h ▸ hab
        · exact hb y h

theorem sortPairs_sorted (l : List (Int × Int)) :
    (sortPairs l).Pairwise (fun x y => x.1 ≤ y.1) := by
  induction l with
  | nil => simp [sortPairs]
  | cons a t ih => exact insertPair_sorted a _ ih

theorem pairsOf_length (q : Vec) (vs : List Vec) (i : Nat) :
    (pairsOf q vs i).length = vs.length := by
  induction vs generalizing i with
  | nil => rfl
  | cons v t ih => simp [pairsOf, ih]

theorem pairsOf_id_bounds {q : Vec} {vs : List Vec} {i : Nat}
    {p : Int × Int} (hp : p ∈ pairsOf q vs i) :
    (i : Int) ≤ p.2 ∧ p.2 < (i : Int) + vs.length := by
  induction vs generalizing i with
  | nil => simp [pairsOf] at hp
  | cons v t ih =>
      simp only [pairsOf, List.mem_cons] at hp
      rcases hp with h | h
      · subst h
        constructor
        · simp
        · simp only [List.length_cons]
          push_cast
          omega
      · rcases ih h with ⟨h1, h2⟩
        constructor
        · have : (i : Int) ≤ (i : Int) + 1 := by omega
          exact le_trans this (by exact_mod_cast h1)
        · simp only [List.length_cons]
          push_cast at h2 ⊢
          omega

theorem collectResults_append (chunks : List Chunk)
    (l1 l2 : List (Int × Int)) :
    collectResults chunks (l1 ++ l2) =
      collectResults chunks l1 ++ collectResults chunks l2 := by
  induction l1 with
  | nil => rfl
  | cons p t ih =>
      simp only [List.cons_append, collectResults]
      split
      · exact ih
      · split
        · simp [ih]
        · exact ih

theorem collectResults_sentinel (chunks : List Chunk) (n : Nat) :
    collectResults chunks (List.replicate n (faissNoDist, -1)) = [] := by
  induction n with
  | zero => rfl
  | succ m ih => simpa [List.replicate, collectResults] using ih

theorem collectResults_length_valid (chunks : List Chunk)
    (l : List (Int × Int))
    (hv : ∀ p ∈ l, 0 ≤ p.2 ∧ p.2.toNat < chunks.length) :
    (collectResults chunks l).length = l.length := by
  induction l with
  | nil => rfl
  | cons p t ih =>
      have hp := hv p (by simp)
      have hne : ¬(p.2 = -1) := by omega
      simp only [collectResults, if_neg hne, dif_pos hp, List.length_cons]
      exact congrArg (· + 1) (ih fun x hx => hv x (by simp [hx]))

theorem collectResults_scores_valid (chunks : List Chunk)
    (l : List (Int × Int))
    (hv : ∀ p ∈ l, 0 ≤ p.2 ∧ p.2.toNat < chunks.length) :
    (collectResults chunks l).map (·.score) = l.map (·.1) := by
  induction l with
  | nil => rfl
  | cons p t ih =>
      have hp := hv p (by simp)
      have hne : ¬(p.2 = -1) := by omega
      simp only [collectResults, if_neg hne, dif_pos hp, List.map_cons]
      exact congrArg _ (ih fun x hx => hv x (by simp [hx]))

theorem collectResults_mem {chunks : List Chunk} {l : List (Int × Int)}
    {r : SearchResult} (hr : r ∈ collectResults chunks l) :
    ∃ i, ∃ h : i < chunks.length,
      r.chunk = (chunks.get ⟨i, h⟩).text ∧
      r.metadata = (chunks.get ⟨i, h⟩).metadata := by
  induction l with
  | nil => simp [collectResults] at hr
  | cons p t ih =>
      simp only [collectResults] at hr
      split at hr
      · exact ih hr
      · split at hr
        · rename_i h
          rcases List.mem_cons.mp hr with h' | h'
          · subst h'
            exact ⟨p.2.toNat, h.2, rfl, rfl⟩
          · exact ih h'
        · exact ih hr

/- ===================== document_processor.py : fix_arabic_text ===================== -/

/-- `re.sub(r' +', ' ', text)` (`document_processor.py` L124): every
maximal run of spaces becomes a single space.  Stated as a structural
scan: a space directly followed by another space is dropped. -/
def collapseSpaces : Str → Str
  | [] => []
  | [c] => [c]
  | a :: b :: r =>
    if a = ' ' ∧ b = ' ' then collapseSpaces (b :: r)
    else a :: collapseSpaces (b :: r)

/-- `re.sub(r'\n{3,}', '\n\n', text)` (L125): every maximal run of three
or more newlines becomes exactly two.  Structural scan: a newline followed
by at least two more newlines is dropped (so a run of `n ≥ 3` keeps its
last two). -/
def collapseNL : Str → Str
  | [] => []
  | [a] => [a]
  | [a, b] => [a, b]
  | a :: b :: c :: r =>
    if a = '\n' ∧ b = '\n' ∧ c = '\n' then collapseNL (b :: c :: r)
    else a :: collapseNL (b :: c :: r)

/-- `text.replace('ﻻ', 'لا')` (L128): the lam-alef ligature becomes its
two-character decomposition; every other character is kept. -/
def fixLam (c : Char) : Str :=
  if c = 'ﻻ' then ['ل', 'ا'] else [c]

/-- The `replacements` table applied at L139-140 (alef variants to bare
alef, alef-maksura to yeh, teh-marbuta to heh).  Source characters are
pairwise distinct and no target is a source, so the five sequential
`str.replace` calls equal one simultaneous character map. -/
def mapAlef (c : Char) : Char :=
  if c = 'أ' ∨ c = 'إ' ∨ c = 'آ' then 'ا'
  else if c = 'ى' then 'ي'
  else if c = 'ة' then 'ه'
  else c

/-- Lines L128-140: ligature decomposition then the character table. -/
def charFix (l : Str) : Str :=
  (l.flatMap fixLam).map mapAlef

/-- `fix_arabic_text` (`document_processor.py` L118-142). -/
def fixArabicText (t : Str) : Str :=
  if pyStrip t = [] then []
  else charFix (collapseNL (collapseSpaces t))

/- ===================== document_processor.py : chunk_document ===================== -/

/-- Python `page_text.find(sub)` (L228): index of the first occurrence of
`pat` in `t`, or `-1`; the empty pattern is found at index 0. -/
def findSubAux (pat : Str) : Str → Nat → Int
  | [], i => if pat = [] then (i : Int) else -1
  | c :: r, i => if pat.isPrefixOf (c :: r) then (i : Int) else findSubAux pat r (i + 1)

def pyFind (t pat : Str) : Int := findSubAux pat t 0

/-- `re.search(re.escape(sep), text)` for a literal separator: substring
occurrence test. -/
def containsSub (t pat : Str) : Bool :=
  t.tails.any (fun s => pat.isPrefixOf s)

/-- `re.split` on a literal separator (leftmost, non-overlapping).  The
fuel argument (initialised to `t.length + 1`, an upper bound on the number
of steps) only makes the recursion structural; it is never exhausted. -/
def splitGo (sep : Str) : Nat → Str → Str → List Str
  | 0, cur, t => [cur.reverse ++ t]
  | _ + 1, cur, [] => [cur.reverse]
  | fuel + 1, cur, c :: rest =>
    if sep ≠ [] ∧ sep.isPrefixOf (c :: rest) then
      cur.reverse :: splitGo sep fuel [] ((c :: rest).drop sep.length)
    else splitGo sep fuel (c :: cur) rest

def splitOnSep (sep t : Str) : List Str := splitGo sep (t.length + 1) [] t

/-- LangChain `_split_text_with_regex` with `keep_separator=False`: split
on the (escaped, i.e. literal) separator, or into single characters when
the separator is empty, and drop empty pieces. -/
def splitWithSep (sep t : Str) : List Str :=
  (if sep = [] then t.map (fun c => [c]) else splitOnSep sep t).filter
    (fun s => decide (s ≠ []))

/-- LangChain `TextSplitter._join_docs` with `strip_whitespace=True`: join
with the separator, strip, return `none` for the empty result. -/
def joinDocs (sep : Str) (docs : List Str) : Option Str :=
  let text := pyStrip (List.intercalate sep docs)
  if text = [] then none else some text

/-- The pop-loop inside LangChain `TextSplitter._merge_splits`: shrink the
running window until it fits under the overlap / chunk-size bounds.
(`cur = []` with the condition still true would raise in Python; it is
unreachable because `total = 0` there.) -/
def mergePop (ov cs sepLen dLen : Nat) : List Str → Nat → List Str × Nat
  | cur, total =>
    if total > ov ∨
        (total + dLen + (if 0 < cur.length then sepLen else 0) > cs ∧ 0 < total) then
      match cur with
      | [] => ([], total)
      | x :: xs =>
          mergePop ov cs sepLen dLen xs
            (total - (x.length + (if 0 < xs.length then sepLen else 0)))
    else (cur, total)
termination_by cur => cur.length

/-- The main loop of LangChain `TextSplitter._merge_splits`: pack splits
into documents of at most `cs` characters (separator lengths included),
keeping at most `ov` characters of overlap between consecutive documents. -/
def mergeGo (cs ov sepLen : Nat) (sep : Str) :
    List Str → List Str → Nat → List Str → List Str
  | docs, cur, _, [] =>
      docs ++ (match joinDocs sep cur with | some d => [d] | none => [])
  | docs, cur, total, d :: ds =>
      if total + d.length + (if 0 < cur.length then sepLen else 0) > cs then
        let docs2 :=
          if 0 < cur.length then
            docs ++ (match joinDocs sep cur with | some dd => [dd] | none => [])
          else docs
        let p := if 0 < cur.length then mergePop ov cs sepLen d.length cur total
                 else (cur, total)
        mergeGo cs ov sepLen sep docs2 (p.1 ++ [d])
          (p.2 + d.length + (if 0 < p.1.length then sepLen else 0)) ds
      else
        mergeGo cs ov sepLen sep docs (cur ++ [d])
          (total + d.length + (if 0 < cur.length then sepLen else 0)) ds

def mergeSplits (cs ov : Nat) (sep : Str) (splits : List Str) : List Str :=
  mergeGo cs ov sep.length sep [] [] 0 splits

/-- The separator-choice loop at the top of
`RecursiveCharacterTextSplitter._split_text`: the first separator that is
empty or occurs in the text is chosen (with the remaining separators kept
for recursion); otherwise the last separator is the default. -/
def chooseSep : List Str → Str → Str × List Str
  | [], _ => ([], [])
  | [s], _ => (s, [])
  | s :: rest, t =>
    if s = [] then (s, [])
    else if containsSub t s then (s, rest) else chooseSep rest t

/-- Group the splits for the `_split_text` emission loop: the leading run
of good (< `cs` chars) splits, then each oversized split paired with the
run of good splits that follows it. -/
def splitSegs (cs : Nat) : List Str → List Str × List (Str × List Str)
  | [] => ([], [])
  | s :: ss =>
    let r := splitSegs cs ss
    if s.length < cs then (s :: r.1, r.2) else ([], (s, r.1) :: r.2)

/-- `RecursiveCharacterTextSplitter._split_text` with
`chunk_size=500, chunk_overlap=100, keep_separator=False` (the repository's
configuration, L196-208): choose a separator, split, merge runs of small
pieces, and recurse with the remaining separators on oversized pieces.
The fuel is initialised to the number of separators, which strictly bounds
the recursion depth (each recursive call drops at least one separator), so
the fuel-0 branch is unreachable. -/
def rsplitF : Nat → List Str → Str → List Str
  | 0, _, t => [t]
  | fuel + 1, seps, t =>
    let p := chooseSep seps t
    let segs := splitSegs 500 (splitWithSep p.1 t)
    mergeSplits 500 100 p.1 segs.1 ++
      (segs.2.map (fun bg =>
        (if p.2 = [] then [bg.1] else rsplitF fuel p.2 bg.1) ++
          mergeSplits 500 100 p.1 bg.2)).flatten

/-- `text_splitter.split_documents([doc])` restricted to the page contents
(metadata is reattached by `chunk_document` itself). -/
def recursiveSplit (seps : List Str) (t : Str) : List Str :=
  rsplitF seps.length seps t

/-- Separator set for Arabic documents (L197-201). -/
def arabicSeps : List Str :=
  ["\n\n".data, "\n".data, ".".data, "!".data, "?".data, "،".data, "؛".data,
   " ".data, "".data]

/-- Separator set for English and other documents (L203-208). -/
def englishSeps : List Str :=
  ["\n\n".data, "\n".data, ".".data, "!".data, "?".data, ";".data, ":".data,
   " ".data, "".data]

def sepsFor (isAr : Bool) : List Str := if isAr then arabicSeps else englishSeps

/-- `re.split(r'\n\s*\n\s*\n', text)` (L188).  A match is a maximal run of
whitespace containing at least three newlines, clipped to start at its
first newline and end at its last newline (the pattern is anchored on
newlines, with greedy `\s*` between).  The accumulator holds the current
piece reversed; fuel (initialised to `t.length + 1`) is never exhausted. -/
def pageSplitGo : Nat → Str → Str → List Str
  | 0, cur, t => [cur.reverse ++ t]
  | _ + 1, cur, [] => [cur.reverse]
  | fuel + 1, cur, c :: rest =>
    if isPyWs c then
      let run := (c :: rest).takeWhile isPyWs
      let rest2 := (c :: rest).dropWhile isPyWs
      if 3 ≤ run.count '\n' then
        (cur.reverse ++ run.takeWhile (fun x => x != '\n')) ::
          pageSplitGo fuel (run.reverse.takeWhile (fun x => x != '\n')) rest2
      else pageSplitGo fuel (run.reverse ++ cur) rest2
    else pageSplitGo fuel (c :: cur) rest

def splitPages (t : Str) : List Str := pageSplitGo (t.length + 1) [] t

/-- Lines L180-192 of `chunk_document`.  When the text contains a form
feed, the source reads `pages = text.split('\f'),` — the trailing comma
wraps the list in a 1-tuple, so `len(pages)` is 1 and the `< 2` guard
always rewrites `pages` to `[text]`.  Otherwise pages are inferred by the
blank-line regex, with the same guard against fewer than 2 or more than
500 segments. -/
def inferPages (t : Str) : List Str :=
  if t.contains '\x0c' then [t]
  else
    let ps := splitPages t
    if ps.length < 2 ∨ 500 < ps.length then [t] else ps

/-- `is_arabic = any('؀' <= c <= 'ۿ' for c in text[:500])`
(L173). -/
def isArabicDoc (t : Str) : Bool := (t.take 500).any isArabicChar

def docLanguage (isAr : Bool) : Str :=
  if isAr then "arabic".data else "english".data

/-- One chunk dict built at L236-246: line number estimated by locating
the chunk's first 50 characters inside the page text. -/
def mkChunk (isAr : Bool) (pageNum cid : Nat) (pageText ctext : Str) : Chunk :=
  let sp := pyFind pageText (ctext.take 50)
  { id := cid, text := ctext,
    metadata :=
      { source := "document".data, chunk_id := cid, page := pageNum + 1,
        line := if sp = -1 then 1 else ((pageText.take sp.toNat).count '\n') + 1,
        language := some (docLanguage isAr) } }

/-- The fallback chunk returned from the `except` branch (L254); note its
metadata carries no `"language"` key. -/
def fallbackChunk (t : Str) : Chunk :=
  { id := 0, text := t,
    metadata := { source := "document".data, chunk_id := 0, page := 1,
                  line := 1, language := none } }

/-- The page loop of `chunk_document` (L214-247): skip whitespace-only
pages (their page number still advances), split each remaining page, and
emit chunks with dense ids.  A `none` from the splitter models the
LangChain call raising, which aborts the whole loop. -/
def emitPages (isAr : Bool) (split : Str → Option (List Str)) :
    List Str → Nat → Nat → Option (List Chunk)
  | [], _, _ => some []
  | p :: ps, pageNum, cid =>
    if pyStrip p = [] then emitPages isAr split ps (pageNum + 1) cid
    else
      match split p with
      | none => none
      | some pcs =>
          match emitPages isAr split ps (pageNum + 1) (cid + pcs.length) with
          | none => none
          | some rest =>
              some ((pcs.enum.map (fun q => mkChunk isAr pageNum (cid + q.1) p q.2)) ++ rest)

/-- `chunk_document` (`document_processor.py` L165-254), parameterised by
the page splitter so that a raising splitter (`none`) exercises the
`except` fallback. -/
def chunkDocumentCore (split : List Str → Str → Option (List Str)) (t : Str) :
    List Chunk :=
  if pyStrip t = [] then []
  else
    match emitPages (isArabicDoc t) (split (sepsFor (isArabicDoc t)))
        (inferPages t) 0 0 with
    | some cs => cs
    | none => [fallbackChunk t]

/-- `chunk_document` with the real (non-raising) LangChain splitter. -/
def chunkDocument (t : Str) : List Chunk :=
  chunkDocumentCore (fun seps p => some (recursiveSplit seps p)) t

/-- `detect_language` (L144-163).  `ld` models the external `langdetect`
call on the first 1000 characters (`none` = the library raising, which the
`except` turns into `'arabic'`).  The float threshold
`arabic_char_count > len(text) * 0.3` is stated exactly over rationals as
`10 * count > 3 * len`; every input used below is far from the rounding
boundary of the double computation. -/
def detectLanguage (ld : Str → Option Str) (t : Str) : Str :=
  if pyStrip t = [] then "unknown".data
  else if 10 * t.countP isArabicChar > 3 * t.length then "arabic".data
  else
    match ld (t.take 1000) with
    | some l => if l = "ar".data then "arabic".data else "english".data
    | none => "arabic".data

/-- The transform described by the specification sentence "collapses each
run of space characters to a single space and each run of 3 or more
consecutive newlines to exactly two newlines", written from the spec's
words as a single run-based pass (for comparison against the code's
`fixArabicText`). -/
def claimCollapse : Str → Str
  | [] => []
  | c :: r =>
    if c = ' ' then ' ' :: claimCollapse (r.dropWhile (· = ' '))
    else if c = '\n' then
      (if 3 ≤ 1 + (r.takeWhile (· = '\n')).length then ['\n', '\n']
       else List.replicate (1 + (r.takeWhile (· = '\n')).length) '\n') ++
        claimCollapse (r.dropWhile (· = '\n'))
    else c :: claimCollapse r
termination_by l => l.length
decreasing_by
  · simp only [List.length_cons]
    exact Nat.lt_succ_of_le (List.dropWhile_sublist _).length_le
  · simp only [List.length_cons]
    exact Nat.lt_succ_of_le (List.dropWhile_sublist _).length_le
  · simp [List.length_cons]

/- ===================== sample data for counterexamples and witnesses ===================== -/

/-- A previously indexed chunk. -/
def chunkA : Chunk :=
  { id := 0, text := "old passage".data,
    metadata := { source := "document".data, chunk_id := 0, page := 1,
                  line := 1, language := some ("english".data) } }

/-- A chunk from a new document. -/
def chunkB : Chunk :=
  { id := 0, text := "new passage".data,
    metadata := { source := "document".data, chunk_id := 0, page := 1,
                  line := 1, language := some ("english".data) } }

/-- A store holding a previously built index over `chunkA`. -/
def storePrev : VectorStore :=
  { index := some ⟨[[0, 0]]⟩, chunks := [chunkA], dimension := 2 }

/-- An encoder that raises on every batch. -/
def failEmb : List Str → Option (List Vec) := fun _ => none

/- ===== addDocument unfolding helpers ===== -/

theorem addDocument_encode_failed (embedB : List Str → Option (List Vec))
    (store : VectorStore) (cs : List Chunk)
    (hne : cs.map (·.text) ≠ []) (h : embedB (cs.map (·.text)) = none) :
    addDocument embedB store cs = ({ store with chunks := cs }, none) := by
  simp [addDocument, hne, h]

theorem addDocument_encode_ok (embedB : List Str → Option (List Vec))
    (store : VectorStore) (cs : List Chunk) (embs : List Vec)
    (hne : cs.map (·.text) ≠ []) (h : embedB (cs.map (·.text)) = some embs) :
    addDocument embedB store cs =
      ({ index := some ⟨embs⟩, chunks := cs,
         dimension := (embs.head?.getD []).length }, some cs.length) := by
  simp [addDocument, hne, h]

/- ===================== C1 ===================== -/

/-- C1 (counterexample): the build is NOT atomic in the claimed sense.
With a previously active build, a failing embedding call leaves the store
holding the NEW passage list (`[chunkB]`) paired with the OLD index's
vectors — exactly the state the claim says can never occur — while the
exception propagates (result `none`). -/
theorem c1_counterexample :
    (addDocument failEmb storePrev [chunkB]).2 = none ∧
    (addDocument failEmb storePrev [chunkB]).1.chunks = [chunkB] ∧
    (addDocument failEmb storePrev [chunkB]).1.chunks ≠ storePrev.chunks ∧
    (addDocument failEmb storePrev [chunkB]).1.index = storePrev.index ∧
    storePrev.index ≠ none := by
  refine ⟨rfl, rfl, by decide, rfl, by decide⟩

/-- C1 (amended): for every `add_document` call on a non-empty passage
list, either the embedding call succeeds and all passages are embedded and
indexed (fresh index over exactly the returned embeddings, count
returned), or the embedding call raises and the failure propagates with
the store left holding the new passage list while the old index object
(whatever it was) stays in place. -/
theorem c1_build_dichotomy (embedB : List Str → Option (List Vec))
    (store : VectorStore) (cs : List Chunk)
    (hne : cs.map (·.text) ≠ []) :
    (embedB (cs.map (·.text)) = none →
      addDocument embedB store cs = ({ store with chunks := cs }, none)) ∧
    (∀ embs, embedB (cs.map (·.text)) = some embs →
      addDocument embedB store cs =
        ({ index := some ⟨embs⟩, chunks := cs,
           dimension := (embs.head?.getD []).length }, some cs.length)) :=
  ⟨addDocument_encode_failed embedB store cs hne,
   fun embs h => addDocument_encode_ok embedB store cs embs hne h⟩

/-- C1 witness: the failure half of `c1_build_dichotomy` at a concrete
store and chunk list. -/
theorem c1_build_dichotomy_witness :
    addDocument failEmb storePrev [chunkB] =
      ({ storePrev with chunks := [chunkB] }, none) :=
  (c1_build_dichotomy failEmb storePrev [chunkB] (by decide)).1 rfl

/- ===================== C2 ===================== -/

/-- C2 (counterexample): calling `add_document` with an empty passage list
on a store with a previous build returns 0, but it does NOT leave the
previously stored passage set untouched (the chunk list is overwritten
with `[]`), and the resulting state is not an explicit no-index state (the
old index object is still there). -/
theorem c2_counterexample :
    (addDocument failEmb storePrev []).2 = some 0 ∧
    (addDocument failEmb storePrev []).1.chunks ≠ storePrev.chunks ∧
    (addDocument failEmb storePrev []).1.index ≠ none := by
  refine ⟨rfl, by decide, by decide⟩

/-- C2 (amended): `add_document []` returns 0 and replaces the stored
passage list with the empty list while leaving the index field (and
dimension) untouched; the store is caller-visibly unsearchable afterwards
(every search returns `[]` because the passage set is empty), and on a
never-built store the no-index state is explicit (`index = none`). -/
theorem c2_empty_build (embedB : List Str → Option (List Vec))
    (store : VectorStore) :
    addDocument embedB store [] = ({ store with chunks := [] }, some 0) ∧
    (∀ embedQ q k, search embedQ { store with chunks := [] } q k = []) := by
  constructor
  · rfl
  · intro embedQ q k
    cases h : store.index <;> simp [search, h]

/- ===================== C6 ===================== -/

/-- C6: `VectorStore.search` is total (it is a Lean function, so it never
raises) and returns the empty list whenever the store has no index
(never-built store), or the active passage set is empty, or the query
embedding call fails (the caught exception path). -/
theorem c6_search_never_raises (embedQ : Str → Option Vec)
    (store : VectorStore) (q : Str) (k : Nat)
    (h : store.index = none ∨ store.chunks = [] ∨ embedQ q = none) :
    search embedQ store q k = [] := by
  rcases h with h | h | h
  · simp [search, h]
  · cases hi : store.index <;> simp [search, hi, h]
  · cases hi : store.index with
    | none => simp [search, hi]
    | some idx =>
        by_cases hc : store.chunks = [] <;> simp [search, hi, hc, h]

/-- A store on which no build ever happened (`VectorStore.__init__`). -/
def freshStore : VectorStore := { index := none, chunks := [], dimension := 768 }

/-- C6 witness: searching a never-built store returns `[]`. -/
theorem c6_search_never_raises_witness :
    search (fun _ => some [0]) freshStore ("anything".data) 3 = [] :=
  c6_search_never_raises _ freshStore _ 3 (Or.inl rfl)

/- ===================== C10 ===================== -/

/-- C10: every result returned by `VectorStore.search` references an
in-bounds stored passage — its text and metadata come from an index `i`
with `i < len(chunks)` — no matter how many vectors the FAISS index holds
relative to the chunk list; out-of-range ids from the index are dropped. -/
theorem c10_results_in_bounds (embedQ : Str → Option Vec)
    (store : VectorStore) (q : Str) (k : Nat) (r : SearchResult)
    (hr : r ∈ search embedQ store q k) :
    ∃ i, ∃ h : i < store.chunks.length,
      r.chunk = (store.chunks.get ⟨i, h⟩).text ∧
      r.metadata = (store.chunks.get ⟨i, h⟩).metadata := by
  cases hi : store.index with
  | none => simp [search, hi] at hr
  | some idx =>
      by_cases hc : store.chunks = []
      · simp [search, hi, hc] at hr
      · cases hq : embedQ q with
        | none => simp [search, hi, hc, hq] at hr
        | some qv =>
            have hr' : r ∈ collectResults store.chunks (faissSearch idx qv k) := by
              simpa [search, hi, hc, hq] using hr
            exact collectResults_mem hr'

/-- A store whose FAISS index holds three vectors while only one chunk is
stored (the state after a failed or empty rebuild). -/
def mismatchStore : VectorStore :=
  { index := some ⟨[[0], [5], [9]]⟩, chunks := [chunkA], dimension := 1 }

/-- C10 witness: on the mismatched store, the concrete returned result
references the single in-bounds chunk; the two out-of-range FAISS ids were
dropped. -/
theorem c10_results_in_bounds_witness :
    ∃ i, ∃ h : i < mismatchStore.chunks.length,
      (({ chunk := chunkA.text, metadata := chunkA.metadata, score := 1 } :
          SearchResult)).chunk = (mismatchStore.chunks.get ⟨i, h⟩).text ∧
      (({ chunk := chunkA.text, metadata := chunkA.metadata, score := 1 } :
          SearchResult)).metadata = (mismatchStore.chunks.get ⟨i, h⟩).metadata :=
  c10_results_in_bounds (fun _ => some [1]) mismatchStore ("q".data) 3 _ (by decide)

/- ===================== C5 ===================== -/

/-- C5: after a successful build over a non-empty passage list `cs` (the
encoder returned one embedding per passage), a search whose query
embedding succeeds returns exactly `min k (len cs)` results with
non-decreasing scores, and every result — in particular never the FAISS
`-1` sentinel — references a valid stored passage. -/
theorem c5_search_bound (embedB : List Str → Option (List Vec))
    (store : VectorStore) (cs : List Chunk) (embs : List Vec)
    (embedQ : Str → Option Vec) (q : Str) (qv : Vec) (k : Nat)
    (hcs : cs ≠ [])
    (hemb : embedB (cs.map (·.text)) = some embs)
    (hlen : embs.length = cs.length)
    (hq : embedQ q = some qv)
    (hk : 1 ≤ k) :
    (search embedQ (addDocument embedB store cs).1 q k).length = min k cs.length ∧
    ((search embedQ (addDocument embedB store cs).1 q k).map
      (·.score)).Pairwise (· ≤ ·) ∧
    ∀ r ∈ search embedQ (addDocument embedB store cs).1 q k,
      ∃ i, ∃ h : i < cs.length, r.chunk = (cs.get ⟨i, h⟩).text := by
  have hne : cs.map (·.text) ≠ [] := by
    simpa using hcs
  have hsearch : search embedQ (addDocument embedB store cs).1 q k =
      collectResults cs (faissSearch ⟨embs⟩ qv k) := by
    rw [addDocument_encode_ok embedB store cs embs hne hemb]
    simp [search, hq, hcs]
  have hvalid : ∀ p ∈ (sortPairs (pairsOf qv embs 0)).take k,
      0 ≤ p.2 ∧ p.2.toNat < cs.length := by
    intro p hp
    have hp2 := mem_sortPairs ((List.take_sublist k _).subset hp)
    have hb := pairsOf_id_bounds hp2
    rcases hb with ⟨h1, h2⟩
    simp only [Nat.cast_zero, zero_add] at h1 h2
    omega
  have hcoll : collectResults cs (faissSearch ⟨embs⟩ qv k) =
      collectResults cs ((sortPairs (pairsOf qv embs 0)).take k) := by
    show collectResults cs ((sortPairs (pairsOf qv embs 0)).take k ++ _) = _
    rw [collectResults_append, collectResults_sentinel, List.append_nil]
  refine ⟨?_, ?_, ?_⟩
  · rw [hsearch, hcoll, collectResults_length_valid _ _ hvalid,
      List.length_take, sortPairs_length, pairsOf_length, hlen]
  · rw [hsearch, hcoll, collectResults_scores_valid _ _ hvalid,
      List.pairwise_map]
    exact List.Pairwise.sublist (List.take_sublist k _) (sortPairs_sorted _)
  · intro r hr
    rw [hsearch] at hr
    rcases collectResults_mem hr with ⟨i, h, ht, _⟩
    exact ⟨i, h, ht⟩

/-- A deterministic encoder used for the C5 witness. -/
def embB2 : List Str → Option (List Vec) := fun _ => some [[0], [3]]

/-- A query encoder used for the C5 witness. -/
def embQ1 : Str → Option Vec := fun _ => some [1]

/-- C5 witness: building over two chunks and searching with `k = 3`
returns `min 3 2 = 2` results, sorted by score, all referencing stored
passages. -/
theorem c5_search_bound_witness :
    (search embQ1 (addDocument embB2 freshStore [chunkA, chunkB]).1
        ("q".data) 3).length = min 3 ([chunkA, chunkB].length) ∧
    ((search embQ1 (addDocument embB2 freshStore [chunkA, chunkB]).1
        ("q".data) 3).map (·.score)).Pairwise (· ≤ ·) ∧
    ∀ r ∈ search embQ1 (addDocument embB2 freshStore [chunkA, chunkB]).1
        ("q".data) 3,
      ∃ i, ∃ h : i < [chunkA, chunkB].length,
        r.chunk = ([chunkA, chunkB].get ⟨i, h⟩).text := by
  have := c5_search_bound embB2 freshStore [chunkA, chunkB] [[0], [3]]
    embQ1 ("q".data) [1] 3 (by decide) rfl rfl rfl (by decide)
  simpa using this

/- ===================== C3 ===================== -/

/-- The scenario text of the claim:
`"Line one.\n\nLine two.\n\n\nLine three."`. -/
def c3text : Str := "Line one.\n\nLine two.\n\n\nLine three.".data

/-- C3 (counterexample): chunking the scenario text does NOT produce
exactly one passage. -/
theorem c3_counterexample : (chunkDocument c3text).length ≠ 1 := by decide

/-- C3 (amended): the page-inference regex `\n\s*\n\s*\n` already matches
the run of three newlines in the scenario text (it needs three newlines,
not three blank lines), so the text is segmented into two pages and
chunking produces exactly two passages, with pages 1 and 2. -/
theorem c3_two_passages :
    (chunkDocument c3text).map (fun c => c.metadata.page) = [1, 2] := by decide

/- ===================== C4 ===================== -/

/-- A document with an explicit form-feed page break. -/
def ffText : Str := "A\x0cB".data

/-- C4 (code bug): the form feed in `"A\x0cB"` splits the text into the
two parts `["A", "B"]` (between 2 and 500 parts, so the claim prescribes
pages 1 and 2), but because of the trailing comma in
`pages = text.split('\f'),` the tuple has length 1 and the guard rewrites
`pages` to the whole text, so chunking emits a single passage with
page 1. -/
theorem c4_formfeed_split_dead :
    splitOnSep ("\x0c".data) ffText = ["A".data, "B".data] ∧
    inferPages ffText = [ffText] ∧
    (chunkDocument ffText).map (fun c => c.metadata.page) = [1] := by
  exact ⟨by decide, by decide, by decide⟩

/- ===================== C9 ===================== -/

theorem emitPages_language (isAr : Bool) (split : Str → Option (List Str)) :
    ∀ (pages : List Str) (pn cid : Nat) (cs : List Chunk),
      emitPages isAr split pages pn cid = some cs →
      ∀ c ∈ cs, c.metadata.language = some (docLanguage isAr) := by
  intro pages
  induction pages with
  | nil =>
      intro pn cid cs h c hc
      simp only [emitPages, Option.some.injEq] at h
      subst h
      simp at hc
  | cons p ps ih =>
      intro pn cid cs h c hc
      simp only [emitPages] at h
      split at h
      · exact ih _ _ _ h c hc
      · cases hs : split p with
        | none => simp [hs] at h
        | some pcs =>
            cases hrest : emitPages isAr split ps (pn + 1) (cid + pcs.length) with
            | none => simp [hs, hrest] at h
            | some rest =>
                simp only [hs, hrest, Option.some.injEq] at h
                subst h
                rcases List.mem_append.mp hc with hm | hm
                · rcases List.mem_map.mp hm with ⟨q, _, hq⟩
                  subst hq
                  rfl
                · exact ih _ _ _ hrest c hm

/-- C9 (amended): every chunk emitted on the normal path of
`chunk_document` is tagged with the document-level language flag
(`"arabic"` iff some character in the first 500 is in the Arabic block —
the same flag that selects the separator set), while the fallback chunk
emitted when splitting raises carries no language tag at all; the flag is
not the `detect_language` heuristic and can disagree with it. -/
theorem c9_language_tags (split : List Str → Str → Option (List Str))
    (t : Str) (c : Chunk) (hc : c ∈ chunkDocumentCore split t) :
    c.metadata.language = some (docLanguage (isArabicDoc t)) ∨
      c = fallbackChunk t := by
  simp only [chunkDocumentCore] at hc
  by_cases hg : pyStrip t = []
  · rw [if_pos hg] at hc
    simp at hc
  · rw [if_neg hg] at hc
    cases he : emitPages (isArabicDoc t) (split (sepsFor (isArabicDoc t)))
        (inferPages t) 0 0 with
    | none =>
        rw [he] at hc
        simp at hc
        exact Or.inr hc
    | some cs =>
        rw [he] at hc
        exact Or.inl (emitPages_language _ _ _ _ _ _ he c hc)

/-- The chunk produced for the document `"hi"`. -/
def chunkHi : Chunk := mkChunk false 0 0 ("hi".data) ("hi".data)

/-- C9 witness: the single chunk of the document `"hi"` is tagged with the
document-level flag (`"english"`). -/
theorem c9_language_tags_witness :
    chunkHi.metadata.language = some (docLanguage (isArabicDoc ("hi".data))) ∨
      chunkHi = fallbackChunk ("hi".data) :=
  c9_language_tags (fun seps p => some (recursiveSplit seps p)) ("hi".data)
    chunkHi (by decide)

/-- A splitter that raises on every page (models the LangChain call
throwing, which the `except` at L251 turns into the fallback chunk). -/
def failSplit : List Str → Str → Option (List Str) := fun _ _ => none

/-- `langdetect.detect` on an overwhelmingly English text returns
`'en'`. -/
def ldEn : Str → Option Str := fun _ => some ("en".data)

/-- Twelve English characters and one Arabic letter: under 30% Arabic, so
`detect_language` defers to langdetect (`'en'` → `english`), while
`chunk_document`'s own flag sees an Arabic character in the first 500 and
tags everything `arabic`. -/
def mixedText : Str := "hello world ا".data

/-- C9 (counterexample): (a) the fallback passage emitted when splitting
raises carries NO language tag, and (b) the tag of normally emitted
passages comes from the first-500-characters flag and disagrees with
`detect_language` on `mixedText`. -/
theorem c9_counterexample :
    (chunkDocumentCore failSplit ("hello".data) =
        [fallbackChunk ("hello".data)] ∧
      (fallbackChunk ("hello".data)).metadata.language = none) ∧
    ((chunkDocument mixedText).map (fun c => c.metadata.language) =
        [some ("arabic".data)] ∧
      detectLanguage ldEn mixedText = "english".data) := by
  exact ⟨⟨by decide, rfl⟩, by decide, by decide⟩

/- ===== normalization lemmas (C7/C8) ===== -/

theorem csp_cons_ne {a : Char} (ha : a ≠ ' ') (l : Str) :
    collapseSpaces (a :: l) = a :: collapseSpaces l := by
  cases l with
  | nil => rfl
  | cons b r => simp [collapseSpaces, ha]

theorem csp_space_run (r : Str) :
    collapseSpaces (' ' :: r) = ' ' :: collapseSpaces (r.dropWhile (· = ' ')) := by
  induction r with
  | nil => rfl
  | cons b r' ih =>
      by_cases hb : b = ' '
      · subst hb
        have h1 : collapseSpaces (' ' :: ' ' :: r') = collapseSpaces (' ' :: r') := by
          simp [collapseSpaces]
        rw [h1, ih, List.dropWhile_cons]
        simp
      · have h1 : collapseSpaces (' ' :: b :: r') = ' ' :: collapseSpaces (b :: r') := by
          simp [collapseSpaces, hb]
        rw [h1, List.dropWhile_cons]
        simp [hb]

theorem csp_head (l : Str) : (collapseSpaces l).head? = l.head? := by
  induction l with
  | nil => rfl
  | cons a r ih =>
      cases r with
      | nil => rfl
      | cons b r' =>
          by_cases h : a = ' ' ∧ b = ' '
          · rcases h with ⟨h1, h2⟩
            subst h1; subst h2
            rw [show collapseSpaces (' ' :: ' ' :: r') = collapseSpaces (' ' :: r') by
                  simp [collapseSpaces]]
            exact ih
          · rw [show collapseSpaces (a :: b :: r') = a :: collapseSpaces (b :: r') by
                  simp [collapseSpaces, h]]
            rfl

theorem csp_replicate_nl (k : Nat) (r : Str) :
    collapseSpaces (List.replicate k '\n' ++ r) =
      List.replicate k '\n' ++ collapseSpaces r := by
  induction k with
  | zero => simp
  | succ m ih =>
      rw [List.replicate_succ, List.cons_append, csp_cons_ne (by decide), ih]
      simp [List.replicate_succ]

theorem cnl_cons_ne {a : Char} (ha : a ≠ '\n') (l : Str) :
    collapseNL (a :: l) = a :: collapseNL l := by
  match l with
  | [] => rfl
  | [b] => rfl
  | b :: c :: r => simp [collapseNL, ha]

theorem cnl_one (r : Str) (hr : r.head? ≠ some '\n') :
    collapseNL ('\n' :: r) = '\n' :: collapseNL r := by
  match r with
  | [] => rfl
  | [b] => rfl
  | b :: c :: r' =>
      have hb : b ≠ '\n' := by simpa using hr
      simp [collapseNL, hb]

theorem cnl_two (r : Str) (hr : r.head? ≠ some '\n') :
    collapseNL ('\n' :: '\n' :: r) = '\n' :: '\n' :: collapseNL r := by
  match r with
  | [] => rfl
  | b :: r' =>
      have hb : b ≠ '\n' := by simpa using hr
      have h1 : collapseNL ('\n' :: '\n' :: b :: r') =
          '\n' :: collapseNL ('\n' :: b :: r') := by
        simp [collapseNL, hb]
      rw [h1, cnl_one (b :: r') hr]

theorem cnl_replicate_ge3 (k : Nat) (r : Str) (hk : 3 ≤ k)
    (hr : r.head? ≠ some '\n') :
    collapseNL (List.replicate k '\n' ++ r) = '\n' :: '\n' :: collapseNL r := by
  induction k with
  | zero => omega
  | succ m ih =>
      by_cases hm : 3 ≤ m
      · obtain ⟨m', rfl⟩ : ∃ m', m = m' + 2 := ⟨m - 2, by omega⟩
        have hrepr : List.replicate (m' + 2 + 1) '\n' ++ r =
            '\n' :: '\n' :: '\n' :: (List.replicate m' '\n' ++ r) := by
          simp [List.replicate_succ]
        rw [hrepr,
          show collapseNL ('\n' :: '\n' :: '\n' :: (List.replicate m' '\n' ++ r)) =
              collapseNL ('\n' :: '\n' :: (List.replicate m' '\n' ++ r)) by
            simp [collapseNL],
          show '\n' :: '\n' :: (List.replicate m' '\n' ++ r) =
              List.replicate (m' + 2) '\n' ++ r by simp [List.replicate_succ]]
        exact ih hm
      · have hm2 : m = 2 := by omega
        subst hm2
        rw [show List.replicate (2 + 1) '\n' ++ r = '\n' :: '\n' :: '\n' :: r by
              simp [List.replicate_succ],
          show collapseNL ('\n' :: '\n' :: '\n' :: r) =
              collapseNL ('\n' :: '\n' :: r) by simp [collapseNL]]
        exact cnl_two r hr

theorem cnl_run (k : Nat) (r : Str) (hr : r.head? ≠ some '\n') :
    collapseNL (List.replicate k '\n' ++ r) =
      (if 3 ≤ k then ['\n', '\n'] else List.replicate k '\n') ++ collapseNL r := by
  by_cases hk : 3 ≤ k
  · rw [if_pos hk, cnl_replicate_ge3 k r hk hr]
    rfl
  · rw [if_neg hk]
    match k, hk with
    | 0, _ => simp
    | 1, _ =>
        rw [show List.replicate 1 '\n' ++ r = '\n' :: r by simp]
        rw [cnl_one r hr]
        simp
    | 2, _ =>
        rw [show List.replicate 2 '\n' ++ r = '\n' :: '\n' :: r by
              simp [List.replicate_succ]]
        rw [cnl_two r hr]
        simp [List.replicate_succ]
    | n + 3, hk => exact absurd (by omega) hk

theorem takeWhile_nl_replicate (r : Str) :
    r.takeWhile (· = '\n') =
      List.replicate (r.takeWhile (· = '\n')).length '\n' :=
  List.eq_replicate_of_mem (fun b hb => by
    simpa using List.mem_takeWhile_imp hb)

theorem dropWhile_nl_head (r : Str) :
    (r.dropWhile (· = '\n')).head? ≠ some '\n' := by
  intro h
  have := List.head?_dropWhile_not (fun c : Char => decide (c = '\n')) r
  rw [h] at this
  simp at this

/-- The code's two regex passes (spaces first, then newline runs) equal
the specification's single run-based collapse. -/
theorem claimCollapse_eq (l : Str) :
    collapseNL (collapseSpaces l) = claimCollapse l := by
  induction l using claimCollapse.induct with
  | case1 => simp [collapseSpaces, collapseNL, claimCollapse]
  | case2 r ih =>
      rw [csp_space_run, cnl_cons_ne (by decide), ih]
      rw [show claimCollapse (' ' :: r) =
            ' ' :: claimCollapse (r.dropWhile (· = ' ')) by
          rw [claimCollapse]; simp]
  | case3 r hne ih =>
      have hdecomp : r = List.replicate (r.takeWhile (· = '\n')).length '\n' ++
          r.dropWhile (· = '\n') := by
        conv_lhs => rw [← List.takeWhile_append_dropWhile (p := (· = '\n')) (l := r)]
        rw [← takeWhile_nl_replicate]
      have hL : collapseSpaces r =
          List.replicate (r.takeWhile (· = '\n')).length '\n' ++
            collapseSpaces (r.dropWhile (· = '\n')) := by
        conv_lhs => rw [hdecomp]
        rw [csp_replicate_nl]
      have hheadc : (collapseSpaces (r.dropWhile (· = '\n'))).head? ≠ some '\n' := by
        rw [csp_head]
        exact dropWhile_nl_head r
      rw [csp_cons_ne (by decide), hL,
        show '\n' :: (List.replicate (r.takeWhile (· = '\n')).length '\n' ++
            collapseSpaces (r.dropWhile (· = '\n'))) =
          List.replicate ((r.takeWhile (· = '\n')).length + 1) '\n' ++
            collapseSpaces (r.dropWhile (· = '\n')) by simp [List.replicate_succ],
        cnl_run _ _ hheadc, ih]
      rw [show claimCollapse ('\n' :: r) =
            (if 3 ≤ 1 + (r.takeWhile (· = '\n')).length then ['\n', '\n']
             else List.replicate (1 + (r.takeWhile (· = '\n')).length) '\n') ++
              claimCollapse (r.dropWhile (· = '\n')) by
          rw [claimCollapse]; simp]
      rw [Nat.add_comm 1 (r.takeWhile (· = '\n')).length]
  | case4 c r hc1 hc2 ih =>
      rw [csp_cons_ne hc1, cnl_cons_ne hc2, ih]
      rw [show claimCollapse (c :: r) = c :: claimCollapse r by
          rw [claimCollapse]
          simp [hc1, hc2]]

/- ===================== C7 ===================== -/

/-- C7 (counterexample): on the whitespace-only input `"   "` the code
returns the empty string (the `len(text.strip()) == 0` guard), whereas the
claimed collapse of each space run to a single space would give `" "`. -/
theorem c7_counterexample :
    fixArabicText ("   ".data) = [] ∧
    claimCollapse ("   ".data) = [' '] ∧
    fixArabicText ("   ".data) ≠ claimCollapse ("   ".data) := by
  have h1 : fixArabicText ("   ".data) = [] := by decide
  have h2 : claimCollapse ("   ".data) = [' '] := by
    show claimCollapse [' ', ' ', ' '] = [' ']
    rw [claimCollapse]
    simp [claimCollapse]
  exact ⟨h1, h2, by simp [h1, h2]⟩

/-- C7 (amended): `fix_arabic_text` is total (never raises); it maps every
input that is empty or whitespace-only — not only the empty string — to
the empty string, and on every other input it performs exactly the claimed
whitespace collapse (each run of spaces to one space, each run of 3+
newlines to exactly two newlines) followed by the Arabic character
table. -/
theorem c7_normalize_collapse (t : Str) :
    (pyStrip t = [] → fixArabicText t = []) ∧
    (pyStrip t ≠ [] → fixArabicText t = charFix (claimCollapse t)) := by
  constructor
  · intro h
    simp [fixArabicText, h]
  · intro h
    simp only [fixArabicText, if_neg h]
    rw [claimCollapse_eq]

/-- C7 witness: the amended statement evaluated on `"ab  c"`. -/
theorem c7_normalize_collapse_witness :
    fixArabicText ("ab  c".data) = charFix (claimCollapse ("ab  c".data)) :=
  (c7_normalize_collapse ("ab  c".data)).2 (by decide)

/- ===== idempotence infrastructure (C8) ===== -/

/-- No two adjacent spaces (what `re.sub(' +', ' ')` leaves behind). -/
def noSpRun : Str → Bool
  | a :: b :: r => !(a = ' ' && b = ' ') && noSpRun (b :: r)
  | _ => true

/-- No three adjacent newlines (what `re.sub('\n{3,}', '\n\n')` leaves
behind). -/
def noNlRun3 : Str → Bool
  | a :: b :: c :: r => !(a = '\n' && b = '\n' && c = '\n') && noNlRun3 (b :: c :: r)
  | _ => true

theorem noSpRun_tail {a : Char} {l : Str} (h : noSpRun (a :: l) = true) :
    noSpRun l = true := by
  cases l with
  | nil => rfl
  | cons b r =>
      simp only [noSpRun, Bool.and_eq_true] at h
      exact h.2

theorem noSpRun_cons_of (x : Char) (X : Str) (hX : noSpRun X = true)
    (hx : x ≠ ' ' ∨ X.head? ≠ some ' ') : noSpRun (x :: X) = true := by
  cases X with
  | nil => rfl
  | cons y ys =>
      simp only [noSpRun, Bool.and_eq_true, hX, and_true]
      rcases hx with hx | hx <;> simp_all

theorem noNlRun3_tail {a : Char} {l : Str} (h : noNlRun3 (a :: l) = true) :
    noNlRun3 l = true := by
  match l with
  | [] => rfl
  | [b] => rfl
  | b :: c :: r =>
      simp only [noNlRun3, Bool.and_eq_true] at h
      exact h.2

theorem noNlRun3_cons_of (x : Char) (X : Str) (hX : noNlRun3 X = true)
    (hx : x ≠ '\n' ∨ X.head? ≠ some '\n' ∨ X.tail.head? ≠ some '\n') :
    noNlRun3 (x :: X) = true := by
  match X with
  | [] => rfl
  | [y] => rfl
  | y :: z :: zs =>
      simp only [noNlRun3, Bool.and_eq_true, hX, and_true]
      rcases hx with hx | hx | hx <;> simp_all

theorem csp_id (l : Str) (h : noSpRun l = true) : collapseSpaces l = l := by
  induction l with
  | nil => rfl
  | cons a r ih =>
      cases r with
      | nil => rfl
      | cons b r' =>
          simp only [noSpRun, Bool.and_eq_true] at h
          have hab : ¬(a = ' ' ∧ b = ' ') := by
            rcases h with ⟨h1, _⟩
            intro hcon
            rcases hcon with ⟨ha, hb⟩
            simp [ha, hb] at h1
          rw [show collapseSpaces (a :: b :: r') = a :: collapseSpaces (b :: r') by
                simp [collapseSpaces, hab]]
          rw [ih h.2]

theorem cnl_id (l : Str) (h : noNlRun3 l = true) : collapseNL l = l := by
  induction l with
  | nil => rfl
  | cons a r ih =>
      match r, h, ih with
      | [], _, _ => rfl
      | [b], _, _ => rfl
      | b :: c :: r', h, ih =>
          simp only [noNlRun3, Bool.and_eq_true] at h
          have habc : ¬(a = '\n' ∧ b = '\n' ∧ c = '\n') := by
            rcases h with ⟨h1, _⟩
            intro hcon
            rcases hcon with ⟨ha, hb, hc⟩
            simp [ha, hb, hc] at h1
          rw [show collapseNL (a :: b :: c :: r') =
                a :: collapseNL (b :: c :: r') by simp [collapseNL, habc]]
          rw [ih h.2]

theorem cnl_head (l : Str) : (collapseNL l).head? = l.head? := by
  induction l using collapseNL.induct with
  | case1 => rfl
  | case2 a => rfl
  | case3 a b => rfl
  | case4 a b c r habc ih =>
      rcases habc with ⟨ha, hb, _⟩
      rw [show collapseNL (a :: b :: c :: r) = collapseNL (b :: c :: r) by
            simp [collapseNL, *]]
      rw [ih]
      simp [ha, hb]
  | case5 a b c r habc ih =>
      rw [show collapseNL (a :: b :: c :: r) = a :: collapseNL (b :: c :: r) by
            simp [collapseNL, habc]]
      rfl

theorem noSpRun_csp (l : Str) : noSpRun (collapseSpaces l) = true := by
  induction l using collapseSpaces.induct with
  | case1 => rfl
  | case2 c => rfl
  | case3 a b r hab ih =>
      rw [show collapseSpaces (a :: b :: r) = collapseSpaces (b :: r) by
            simp [collapseSpaces, hab]]
      exact ih
  | case4 a b r hab ih =>
      rw [show collapseSpaces (a :: b :: r) = a :: collapseSpaces (b :: r) by
            simp [collapseSpaces, hab]]
      apply noSpRun_cons_of _ _ ih
      rw [csp_head]
      by_cases ha : a = ' '
      · right
        have hb : ¬ b = ' ' := fun hb => hab ⟨ha, hb⟩
        simpa using hb
      · exact Or.inl ha

theorem noSpRun_cnl (l : Str) (h : noSpRun l = true) :
    noSpRun (collapseNL l) = true := by
  induction l using collapseNL.induct with
  | case1 => rfl
  | case2 a => rfl
  | case3 a b => exact h
  | case4 a b c r habc ih =>
      rw [show collapseNL (a :: b :: c :: r) = collapseNL (b :: c :: r) by
            simp [collapseNL, habc]]
      exact ih (noSpRun_tail h)
  | case5 a b c r habc ih =>
      rw [show collapseNL (a :: b :: c :: r) = a :: collapseNL (b :: c :: r) by
            simp [collapseNL, habc]]
      apply noSpRun_cons_of _ _ (ih (noSpRun_tail h))
      rw [cnl_head]
      simp only [noSpRun, Bool.and_eq_true] at h
      have hab : ¬(a = ' ' ∧ b = ' ') := by
        rcases h with ⟨h1, _⟩
        intro hcon
        rcases hcon with ⟨ha, hb⟩
        simp [ha, hb] at h1
      by_cases ha : a = ' '
      · right
        have hb : ¬ b = ' ' := fun hb => hab ⟨ha, hb⟩
        simpa using hb
      · exact Or.inl ha

theorem noNlRun3_cnl (l : Str) : noNlRun3 (collapseNL l) = true := by
  induction l using collapseNL.induct with
  | case1 => rfl
  | case2 a => rfl
  | case3 a b => rfl
  | case4 a b c r habc ih =>
      rw [show collapseNL (a :: b :: c :: r) = collapseNL (b :: c :: r) by
            simp [collapseNL, habc]]
      exact ih
  | case5 a b c r habc ih =>
      rw [show collapseNL (a :: b :: c :: r) = a :: collapseNL (b :: c :: r) by
            simp [collapseNL, habc]]
      apply noNlRun3_cons_of _ _ ih
      by_cases ha : a = '\n'
      · by_cases hb : b = '\n'
        · have hc : ¬ c = '\n' := fun hc => habc ⟨ha, hb, hc⟩
          right; right
          subst ha; subst hb
          rw [cnl_one (c :: r) (by simpa using hc)]
          rw [show ('\n' :: collapseNL (c :: r)).tail = collapseNL (c :: r) by rfl]
          rw [cnl_head]
          simpa using hc
        · right; left
          rw [cnl_head]
          simpa using hb
      · exact Or.inl ha

theorem charFix_nil : charFix [] = [] := rfl

theorem charFix_cons (c : Char) (l : Str) :
    charFix (c :: l) =
      if c = 'ﻻ' then 'ل' :: 'ا' :: charFix l else mapAlef c :: charFix l := by
  have hl : mapAlef 'ل' = 'ل' := by decide
  have ha2 : mapAlef 'ا' = 'ا' := by decide
  by_cases h : c = 'ﻻ'
  · subst h
    simp [charFix, fixLam, hl, ha2]
  · simp [charFix, fixLam, h]

theorem mapAlef_ne_space {c : Char} (h : c ≠ ' ') : mapAlef c ≠ ' ' := by
  unfold mapAlef
  split_ifs with h1 h2 h3 <;> first | decide | exact h

theorem mapAlef_ne_nl {c : Char} (h : c ≠ '\n') : mapAlef c ≠ '\n' := by
  unfold mapAlef
  split_ifs with h1 h2 h3 <;> first | decide | exact h

theorem charFix_head_ne_space {b : Char} (hb : b ≠ ' ') (l : Str) :
    (charFix (b :: l)).head? ≠ some ' ' := by
  rw [charFix_cons]
  by_cases h : b = 'ﻻ'
  · simp [h]
  · simp [h]
    exact mapAlef_ne_space hb

theorem charFix_head_ne_nl {b : Char} (hb : b ≠ '\n') (l : Str) :
    (charFix (b :: l)).head? ≠ some '\n' := by
  rw [charFix_cons]
  by_cases h : b = 'ﻻ'
  · simp [h]
  · simp [h]
    exact mapAlef_ne_nl hb

theorem noSpRun_charFix (l : Str) (h : noSpRun l = true) :
    noSpRun (charFix l) = true := by
  induction l with
  | nil => rfl
  | cons a r ih =>
      have hr : noSpRun (charFix r) = true := ih (noSpRun_tail h)
      rw [charFix_cons]
      by_cases ha : a = 'ﻻ'
      · rw [if_pos ha]
        apply noSpRun_cons_of _ _ _ (Or.inl (by decide))
        apply noSpRun_cons_of _ _ hr (Or.inl (by decide))
      · rw [if_neg ha]
        by_cases has : a = ' '
        · subst has
          cases r with
          | nil => rfl
          | cons b r' =>
              simp only [noSpRun, Bool.and_eq_true] at h
              have hb : b ≠ ' ' := by
                intro hb
                rcases h with ⟨h1, _⟩
                simp [hb] at h1
              apply noSpRun_cons_of _ _ hr
              exact Or.inr (charFix_head_ne_space hb r')
        · exact noSpRun_cons_of _ _ hr (Or.inl (mapAlef_ne_space has))

theorem noNlRun3_charFix (l : Str) (h : noNlRun3 l = true) :
    noNlRun3 (charFix l) = true := by
  induction l with
  | nil => rfl
  | cons a r ih =>
      have hr : noNlRun3 (charFix r) = true := ih (noNlRun3_tail h)
      rw [charFix_cons]
      by_cases ha : a = 'ﻻ'
      · rw [if_pos ha]
        apply noNlRun3_cons_of _ _ _ (Or.inl (by decide))
        apply noNlRun3_cons_of _ _ hr (Or.inl (by decide))
      · rw [if_neg ha]
        by_cases han : a = '\n'
        · subst han
          rw [show mapAlef '\n' = '\n' from rfl]
          cases r with
          | nil => rfl
          | cons b r' =>
              by_cases hb : b = '\n'
              · subst hb
                cases r' with
                | nil =>
                    apply noNlRun3_cons_of _ _ hr
                    right; right
                    rw [charFix_cons]
                    simp [charFix_nil]
                | cons c r'' =>
                    simp only [noNlRun3, Bool.and_eq_true] at h
                    have hc : c ≠ '\n' := by
                      intro hc
                      rcases h with ⟨h1, _⟩
                      simp [hc] at h1
                    apply noNlRun3_cons_of _ _ hr
                    right; right
                    rw [charFix_cons]
                    simp only [if_neg (by decide : ¬ ('\n' : Char) = 'ﻻ')]
                    rw [show mapAlef '\n' = '\n' from rfl]
                    rw [show ('\n' :: charFix (c :: r'')).tail = charFix (c :: r'')
                          from rfl]
                    exact charFix_head_ne_nl hc r''
              · apply noNlRun3_cons_of _ _ hr
                exact Or.inr (Or.inl (charFix_head_ne_nl hb r'))
        · exact noNlRun3_cons_of _ _ hr (Or.inl (mapAlef_ne_nl han))

theorem dropWhile_eq_nil_all {p : Char → Bool} {l : Str}
    (h : l.dropWhile p = []) : ∀ c ∈ l, p c = true := by
  induction l with
  | nil => simp
  | cons a r ih =>
      rw [List.dropWhile_cons] at h
      by_cases ha : p a = true
      · rw [if_pos ha] at h
        intro c hc
        rcases List.mem_cons.mp hc with rfl | hc
        · exact ha
        · exact ih h c hc
      · rw [if_neg ha] at h
        exact absurd h (by simp)

theorem all_dropWhile_eq_nil {p : Char → Bool} {l : Str}
    (h : ∀ c ∈ l, p c = true) : l.dropWhile p = [] := by
  induction l with
  | nil => rfl
  | cons a r ih =>
      rw [List.dropWhile_cons, if_pos (h a (by simp))]
      exact ih (fun c hc => h c (by simp [hc]))

theorem pyStrip_eq_nil_iff (l : Str) :
    pyStrip l = [] ↔ ∀ c ∈ l, isPyWs c = true := by
  unfold pyStrip
  constructor
  · intro h
    rw [List.reverse_eq_nil_iff] at h
    have h2 := dropWhile_eq_nil_all h
    have h3 : ∀ c ∈ l.dropWhile isPyWs, isPyWs c = true := by
      intro c hc
      exact h2 c (by simpa using hc)
    intro c hc
    rw [← List.takeWhile_append_dropWhile (p := isPyWs) (l := l)] at hc
    rcases List.mem_append.mp hc with hc | hc
    · exact List.mem_takeWhile_imp hc
    · exact h3 c hc
  · intro h
    rw [all_dropWhile_eq_nil h]
    rfl

theorem mem_csp {c : Char} {l : Str} (hc : c ∈ l) (hne : c ≠ ' ') :
    c ∈ collapseSpaces l := by
  induction l with
  | nil => simp at hc
  | cons a r ih =>
      cases r with
      | nil => exact hc
      | cons b r' =>
          by_cases hab : a = ' ' ∧ b = ' '
          · rw [show collapseSpaces (a :: b :: r') = collapseSpaces (b :: r') by
                  simp [collapseSpaces, hab]]
            rcases List.mem_cons.mp hc with rfl | hc
            · exact absurd hab.1 hne
            · exact ih hc
          · rw [show collapseSpaces (a :: b :: r') = a :: collapseSpaces (b :: r') by
                  simp [collapseSpaces, hab]]
            rcases List.mem_cons.mp hc with rfl | hc
            · exact List.mem_cons_self _ _
            · exact List.mem_cons_of_mem _ (ih hc)

theorem mem_cnl {c : Char} {l : Str} (hc : c ∈ l) (hne : c ≠ '\n') :
    c ∈ collapseNL l := by
  induction l with
  | nil => simp at hc
  | cons a r ih =>
      match r, hc, ih with
      | [], hc, _ => exact hc
      | [b], hc, _ => exact hc
      | b :: d :: r', hc, ih =>
          by_cases habc : a = '\n' ∧ b = '\n' ∧ d = '\n'
          · rw [show collapseNL (a :: b :: d :: r') = collapseNL (b :: d :: r') by
                  simp [collapseNL, habc]]
            rcases List.mem_cons.mp hc with rfl | hc
            · exact absurd habc.1 hne
            · exact ih hc
          · rw [show collapseNL (a :: b :: d :: r') =
                  a :: collapseNL (b :: d :: r') by simp [collapseNL, habc]]
            rcases List.mem_cons.mp hc with rfl | hc
            · exact List.mem_cons_self _ _
            · exact List.mem_cons_of_mem _ (ih hc)

theorem charFix_exists_nonws {l : Str} {c : Char} (hc : c ∈ l)
    (hw : isPyWs c = false) : ∃ d ∈ charFix l, isPyWs d = false := by
  by_cases h : c = 'ﻻ'
  · subst h
    refine ⟨'ل', ?_, by decide⟩
    exact List.mem_map.mpr
      ⟨'ل', List.mem_flatMap.mpr ⟨'ﻻ', hc, by simp [fixLam]⟩, by decide⟩
  · refine ⟨mapAlef c, ?_, ?_⟩
    · exact List.mem_map.mpr
        ⟨c, List.mem_flatMap.mpr ⟨c, hc, by simp [fixLam, h]⟩, rfl⟩
    · unfold mapAlef
      split_ifs <;> first | decide | exact hw

theorem flatMap_fixLam_id {l : Str} (h : ∀ d ∈ l, fixLam d = [d]) :
    l.flatMap fixLam = l := by
  induction l with
  | nil => rfl
  | cons a r ih =>
      rw [List.flatMap_cons, h a (by simp), ih (fun d hd => h d (by simp [hd]))]
      rfl

theorem map_mapAlef_id {l : Str} (h : ∀ d ∈ l, mapAlef d = d) :
    l.map mapAlef = l := by
  induction l with
  | nil => rfl
  | cons a r ih =>
      rw [List.map_cons, h a (by simp), ih (fun d hd => h d (by simp [hd]))]

theorem mapAlef_idem (c : Char) : mapAlef (mapAlef c) = mapAlef c := by
  by_cases h1 : c = 'أ' ∨ c = 'إ' ∨ c = 'آ'
  · rw [show mapAlef c = 'ا' by simp [mapAlef, h1]]
    decide
  · by_cases h2 : c = 'ى'
    · rw [show mapAlef c = 'ي' by simp [mapAlef, h1, h2]]
      decide
    · by_cases h3 : c = 'ة'
      · rw [show mapAlef c = 'ه' by simp [mapAlef, h1, h2, h3]]
        decide
      · have h4 : mapAlef c = c := by simp [mapAlef, h1, h2, h3]
        rw [h4, h4]

theorem mapAlef_ne_lam {c : Char} (h : c ≠ 'ﻻ') : mapAlef c ≠ 'ﻻ' := by
  unfold mapAlef
  split_ifs <;> first | decide | exact h

theorem mem_charFix_props {l : Str} {d : Char} (hd : d ∈ charFix l) :
    fixLam d = [d] ∧ mapAlef d = d := by
  unfold charFix at hd
  rcases List.mem_map.mp hd with ⟨e, he, rfl⟩
  have hene : e ≠ 'ﻻ' := by
    rcases List.mem_flatMap.mp he with ⟨c, _, hef⟩
    unfold fixLam at hef
    split_ifs at hef with hcl
    · rcases List.mem_cons.mp hef with rfl | hef
      · decide
      · rcases List.mem_cons.mp hef with rfl | hef
        · decide
        · simp at hef
    · intro hcon
      rw [List.mem_singleton.mp hef] at hcon
      exact hcl hcon
  constructor
  · have h2 : mapAlef e ≠ 'ﻻ' := mapAlef_ne_lam hene
    simp [fixLam, h2]
  · exact mapAlef_idem e

theorem charFix_idem (l : Str) : charFix (charFix l) = charFix l := by
  have h1 : ∀ d ∈ charFix l, fixLam d = [d] := fun d hd => (mem_charFix_props hd).1
  have h2 : ∀ d ∈ charFix l, mapAlef d = d := fun d hd => (mem_charFix_props hd).2
  show ((charFix l).flatMap fixLam).map mapAlef = charFix l
  rw [flatMap_fixLam_id h1, map_mapAlef_id h2]

/- ===================== C8 ===================== -/

/-- C8: `fix_arabic_text` is idempotent: applying it twice equals applying
it once, for every input string. -/
theorem c8_normalize_idempotent (t : Str) :
    fixArabicText (fixArabicText t) = fixArabicText t := by
  by_cases h : pyStrip t = []
  · rw [show fixArabicText t = [] by simp [fixArabicText, h]]
    decide
  · have hy : fixArabicText t = charFix (collapseNL (collapseSpaces t)) := by
      simp [fixArabicText, h]
    rw [hy]
    have hnsp : noSpRun (charFix (collapseNL (collapseSpaces t))) = true :=
      noSpRun_charFix _ (noSpRun_cnl _ (noSpRun_csp t))
    have hnnl : noNlRun3 (charFix (collapseNL (collapseSpaces t))) = true :=
      noNlRun3_charFix _ (noNlRun3_cnl _)
    have hstrip : pyStrip (charFix (collapseNL (collapseSpaces t))) ≠ [] := by
      intro h0
      obtain ⟨c, hc, hcw⟩ : ∃ c ∈ t, isPyWs c = false := by
        by_contra hall
        push_neg at hall
        exact h ((pyStrip_eq_nil_iff t).mpr (fun c hc => by
          have := hall c hc
          simpa using this))
      have hcs : c ≠ ' ' := by
        intro hce
        rw [hce] at hcw
        simp [isPyWs] at hcw
      have hcn : c ≠ '\n' := by
        intro hce
        rw [hce] at hcw
        simp [isPyWs] at hcw
      have hc2 : c ∈ collapseNL (collapseSpaces t) := mem_cnl (mem_csp hc hcs) hcn
      obtain ⟨d, hd, hdw⟩ := charFix_exists_nonws hc2 hcw
      have := (pyStrip_eq_nil_iff _).mp h0 d hd
      rw [hdw] at this
      exact absurd this (by simp)
    simp only [fixArabicText, if_neg hstrip]
    rw [csp_id _ hnsp, cnl_id _ hnnl, charFix_idem]
